import Mathlib

/-!
Verification of the SMAUG tiling subsystem.

The tiling optimizer is documented in `docs/tiling_optimizer.dox` and
`docs/source/tutorial.dox`; the concrete implementation files
(`smv_tiling_base.cpp`, `tensor_utils.cpp`, ...) are not part of this source
snapshot, so the corresponding operations are modelled from the specification
(each such definition is marked `Modelled from the spec:`).  The SMV backend
globals (`core/backend.h`) and the SMV same-padding convolution kernel
(`operators/smv/kernels/convolution_simd.c`) are embedded directly from the
source.

Conventions: machine integers become `Nat`/`Int`; tensor dimension lists are
`List Nat`; float tensor payloads become `Int` (or a generic type with a
generic elementwise operation, which captures bit-exactness: applying the same
operation to the same operands yields the same bits).
-/

namespace Smaug

/-- Round `x` up to the next multiple of `a`; `a = 0` means no alignment
(mirrors `smaug::TensorShape` padding of the innermost dimension). -/
def roundUp (x a : Nat) : Nat := if a = 0 then x else (x + a - 1) / a * a

/-- Ceiling division, the number of tiles needed to cover extent `a` with
tiles of extent `b`. -/
def ceilDiv (a b : Nat) : Nat := (a + b - 1) / b

/-- Pointwise `≤` on equal-length dimension lists (`false` on a length
mismatch). -/
def leDims : List Nat → List Nat → Bool
  | [], [] => true
  | a :: as, b :: bs => decide (a ≤ b) && leDims as bs
  | _, _ => false

/-- Three-list zip, truncating to the shortest list. -/
def zip3With (f : α → β → γ → δ) : List α → List β → List γ → List δ
  | a :: as, b :: bs, c :: cs => f a b c :: zip3With f as bs cs
  | _, _, _ => []

/-- Pad the last (innermost) dimension up to a multiple of the alignment,
as `smaug::TensorShape` does. -/
def padLast (a : Nat) : List Nat → List Nat
  | [] => []
  | [d] => [roundUp d a]
  | d :: ds => d :: padLast a ds

/-- Storage size of a dims list in elements: product of the dims with the
last one aligned (`TensorShape::storageSize`). -/
def storageElems (dims : List Nat) (a : Nat) : Nat := (padLast a dims).foldr (· * ·) 1

/-- Storage size in bytes: aligned element count times the element byte
width. -/
def storageBytes (dims : List Nat) (a esz : Nat) : Nat := storageElems dims a * esz

/-! ### Strategy selector

Modelled from the spec: `smaug::smv::TilingOptimizerBase::findBestTilingDims`
is not under `src/` (only the doc page describes it).  A tiling strategy is a
mask over the tensor dimensions saying which dimensions are partitioned; the
operator family supplies a fixed preference order of such masks, starting at
"no tiling" (the all-`false` mask).  The candidate tile for a strategy keeps
unpartitioned dimensions at full extent and reduces partitioned dimensions to
their minimum-shape floor values. -/

/-- Candidate tile dims for a strategy mask: partitioned dimensions drop to
the minimum-shape floor, unpartitioned ones stay at full extent. -/
def strategyTileDims (mask : List Bool) (dims minShape : List Nat) : List Nat :=
  zip3With (fun b d m => if b then m else d) mask dims minShape

/-- Does the candidate tile of this strategy fit the capacity budget? -/
def fitsStrategy (mask : List Bool) (dims minShape : List Nat) (cap a esz : Nat) : Bool :=
  decide (storageBytes (strategyTileDims mask dims minShape) a esz ≤ cap)

/-- Modelled from the spec: walk the preference order and return the first
strategy whose candidate tile fits within capacity; `none` is the infeasible
configuration error. -/
def findBestTilingDims (order : List (List Bool)) (dims minShape : List Nat)
    (cap a esz : Nat) : Option (List Bool) :=
  match order with
  | [] => none
  | m :: rest =>
    if fitsStrategy m dims minShape cap a esz then some m
    else findBestTilingDims rest dims minShape cap a esz

/-! ### Tile generator (non-overlapping variant)

Modelled from the spec: `smaug::generateTiledTensor` is not under `src/`.
A tile is identified by its per-dimension tile index vector `ks`; its origin
is `ks * tdims` pointwise, and its shape is the tile shape clipped at the
parent tensor boundary. -/

/-- All tile index vectors for a parent of shape `dims` cut into tiles of
shape `tdims`. -/
def genTileIndices (dims tdims : List Nat) : List (List Nat) :=
  List.sections (List.zipWith (fun d t => List.range (ceilDiv d t)) dims tdims)

/-- Origin (parent-coordinate offset) of the tile with index vector `ks`. -/
def tileOrigin (ks tdims : List Nat) : List Nat := List.zipWith (fun k t => k * t) ks tdims

/-- Shape of the tile with index vector `ks`: the tile shape clipped at the
parent boundary. -/
def tileSizes (ks tdims dims : List Nat) : List Nat :=
  zip3With (fun k t d => min t (d - k * t)) ks tdims dims

/-- Does the tile with index vector `ks` contain parent coordinate `c`? -/
def tileContainsB : List Nat → List Nat → List Nat → List Nat → Bool
  | [], [], [], [] => true
  | t :: ts, d :: ds, k :: kss, x :: xs =>
    decide (k * t ≤ x) && decide (x < k * t + min t (d - k * t)) && tileContainsB ts ds kss xs
  | _, _, _, _ => false

/-- Is `c` a coordinate of the parent tensor (pointwise below `dims`)? -/
def validCoordB : List Nat → List Nat → Bool
  | [], [] => true
  | d :: ds, x :: xs => decide (x < d) && validCoordB ds xs
  | _, _ => false

/-- The tile index vector containing a coordinate: pointwise division by the
tile shape. -/
def divTileIndex (c tdims : List Nat) : List Nat := List.zipWith (fun x t => x / t) c tdims

/-- Modelled from the spec: the overlapping/strided/padded variant
(`smaug::generateTiledTensorWithStrideAndPadding`, not under `src/`) places,
along a dimension of extent `d`, tiles at offsets `0, s, 2*s, ...`; with tile
extent `T ≥ s` consecutive tiles overlap by `T - s` (kernel extent minus
stride). -/
def stridedTileOffsets (d s : Nat) : List Nat := (List.range (ceilDiv d s)).map (fun j => j * s)

/-- Modelled from the spec: the tiling pipeline for one tensor — select a
strategy, then generate tiles; on an infeasible configuration the error is
reported (`none`) before any tile is generated. -/
def tileTensor (order : List (List Bool)) (dims minShape : List Nat)
    (cap a esz : Nat) : Option (List (List Nat)) :=
  match findBestTilingDims order dims minShape cap a esz with
  | none => none
  | some m => some (genTileIndices dims (strategyTileDims m dims minShape))

/-! ### Tile-shape search

Modelled from the spec and the documented `computeBasicTileShapes` snippet in
`docs/tiling_optimizer.dox` (DimN case): enumerate input tile shapes, pair
each with the compatible weight tile shapes (output feature maps strided by
the PE count, innermost dimensions matching, stopping at the first
over-capacity candidate), then pick the configuration that maximizes local
scratchpad usage, ties broken toward the larger primary (input) tile. -/

/-- A tiling configuration: a tile shape per tensor role. -/
structure TilingConfig where
  inputs : List Nat
  weights : List Nat
  deriving DecidableEq

/-- Total scratchpad utilization of a configuration. -/
def configTotal (a esz : Nat) (c : TilingConfig) : Nat :=
  storageBytes c.inputs a esz + storageBytes c.weights a esz

/-- Size of the primary (input) tensor tile of a configuration. -/
def configPrimary (a esz : Nat) (c : TilingConfig) : Nat := storageBytes c.inputs a esz

/-- Output feature map counts `minOf, minOf + step, ...` up to `w0`
(the snippet's loop header `for (int n = minOfmaps; n <= weightsShape[0];
n += kNumPEs)`). -/
def ofmapCandidates (w0 minOf step : Nat) : List Nat :=
  if minOf ≤ w0 then (List.range ((w0 - minOf) / step + 1)).map (fun i => minOf + i * step)
  else []

/-- The snippet's `config.weights = weightsShape; config.weights[0] = n;
config.weights[3] = inputsShape[3]`. -/
def setWeightDims (n : Nat) (s wS : List Nat) : List Nat :=
  match wS with
  | _w0 :: w1 :: w2 :: w3 :: rest => n :: w1 :: w2 :: s.getD 3 w3 :: rest
  | _ => wS

/-- Weight tile shapes compatible with input tile shape `s` (the documented
DimN loop): candidates are kept while they fit `maxTile`; the loop breaks at
the first over-capacity candidate. -/
def enumWeightConfigsDimN (s wS : List Nat) (kPE maxTile a esz : Nat) : List TilingConfig :=
  ((ofmapCandidates (wS.headD 0) (min (wS.headD 0) kPE) kPE).map
      (fun n => TilingConfig.mk s (setWeightDims n s wS))).takeWhile
    (fun c => decide (storageBytes c.weights a esz ≤ maxTile))

/-- Modelled from the spec: input tile shapes for the DimN strategy
(`enum4DTensorTilingConfigs` is not under `src/`): batch sizes from 1 to the
full batch count, inner dimensions whole, over-capacity shapes discarded. -/
def enumInputConfigsDimN (inS : List Nat) (maxTile a esz : Nat) : List (List Nat) :=
  ((List.range (inS.headD 0)).map (fun i => (i + 1) :: inS.tail)).filter
    (fun s => decide (storageBytes s a esz ≤ maxTile))

/-- The DimN configuration space: every input candidate paired with each of
its compatible weight candidates. -/
def computeBasicTileShapesDimN (inS wS : List Nat) (kPE maxTile a esz : Nat) :
    List TilingConfig :=
  (enumInputConfigsDimN inS maxTile a esz).flatMap
    (fun s => enumWeightConfigsDimN s wS kPE maxTile a esz)

/-- Is `cand` strictly better than `best`: higher total utilization, or equal
utilization with a larger primary tile? -/
def betterConfig (a esz : Nat) (best cand : TilingConfig) : Bool :=
  decide (configTotal a esz best < configTotal a esz cand) ||
    (decide (configTotal a esz cand = configTotal a esz best) &&
      decide (configPrimary a esz best < configPrimary a esz cand))

/-- Modelled from the spec: scan all surviving configurations and pick the one
maximizing scratchpad usage, ties broken toward the larger primary tile. -/
def findBestTileShape (a esz : Nat) : List TilingConfig → Option TilingConfig
  | [] => none
  | c :: rest => some (rest.foldl (fun best d => if betterConfig a esz best d then d else best) c)

/-! ### Rank-2 tensors with data, per-batch tiling, and the merge step

Modelled from the spec: `smaug::generateTiledTensorPerBatchNC` and
`smaug::flattenTiledTensor` are not under `src/` (the tutorial only calls
them).  A rank-2 (NC layout) tensor carries its payload as a total function
of the two coordinates. -/

/-- A rank-2 tensor: batches x channels with a data payload. -/
structure Tensor2 (α : Type) where
  batches : Nat
  channels : Nat
  data : Nat → Nat → α

/-- One tile of a rank-2 tensor: parent-coordinate origin, shape, payload. -/
structure Tile2 (α : Type) where
  originN : Nat
  originC : Nat
  sizeN : Nat
  sizeC : Nat
  data : Nat → Nat → α

/-- Modelled from the spec: `generateTiledTensorPerBatchNC` — one tile row per
batch, the inner dimension cut into chunks of `tileC`; `copyData = true`
copies the source window into the tile, `copyData = false` leaves the tile
payload unpopulated (modelled by the constant `z`). -/
def generateTiledTensorPerBatchNC (t : Tensor2 α) (tileC : Nat) (copyData : Bool) (z : α) :
    List (Tile2 α) :=
  (List.range t.batches).flatMap fun b =>
    (List.range (ceilDiv t.channels tileC)).map fun k =>
      Tile2.mk b (k * tileC) 1 (min tileC (t.channels - k * tileC))
        (fun i j => if copyData then t.data (b + i) (k * tileC + j) else z)

/-- Does tile `tl` contain parent coordinate `(n, c)`? -/
def tileHolds (tl : Tile2 α) (n c : Nat) : Bool :=
  decide (tl.originN ≤ n) && decide (n < tl.originN + tl.sizeN) &&
    decide (tl.originC ≤ c) && decide (c < tl.originC + tl.sizeC)

/-- Modelled from the spec: `flattenTiledTensor` merges the tiles back into one
contiguous tensor by applying the inverse of the origin-offset mapping: each
output coordinate reads from its containing tile. -/
def flattenTiledTensor (tiles : List (Tile2 α)) (z : α) : Nat → Nat → α :=
  fun n c =>
    match tiles.find? (fun tl => tileHolds tl n c) with
    | some tl => tl.data (n - tl.originN) (c - tl.originC)
    | none => z

/-- Apply a binary elementwise operation to one pair of corresponding tiles. -/
def tileAdd (op : α → α → α) (t1 t2 : Tile2 α) : Tile2 α :=
  Tile2.mk t1.originN t1.originC t1.sizeN t1.sizeC (fun i j => op (t1.data i j) (t2.data i j))

/-- The scheduler loop for an elementwise operator: walk both tile collections
in lockstep and apply the compute step per tile. -/
def tiledEltwise (op : α → α → α) (A B : List (Tile2 α)) : List (Tile2 α) :=
  List.zipWith (tileAdd op) A B

/-! ### The SMV same-padding convolution kernel

Embedded from `src/nnet_lib/src/operators/smv/kernels/convolution_simd.c`
(`smv_conv3d_f32_nhwc_same_padding_vec_fxp`).  The padding bounds and the
`is_padding` activation selection are taken verbatim; the PE/MACC vector-lane
grouping of the reduction is reassociated into a plain triple sum, which is
exact over `Int` (the hardware lanes beyond `k_height` multiply zero weights
by zero activations and contribute nothing). -/

/-- Input activation / kernel extents of one convolution invocation. -/
structure ConvShape where
  aRows : Nat
  aCols : Nat
  kRows : Nat
  kCols : Nat
  kHeight : Nat

/-- `top_pad = k_cols / 2`. -/
def topPad (s : ConvShape) : Nat := s.kCols / 2

/-- `left_pad = k_rows / 2`. -/
def leftPad (s : ConvShape) : Nat := s.kRows / 2

/-- `bottom_pad = total_row_pad - top_pad` with `total_row_pad = k_rows - 1`. -/
def bottomPad (s : ConvShape) : Nat := s.kRows - 1 - topPad s

/-- `right_pad = total_col_pad - left_pad` with `total_col_pad = k_cols - 1`. -/
def rightPad (s : ConvShape) : Nat := s.kCols - 1 - leftPad s

/-- `in_row = out_row - top_pad + kern_row`. -/
def inputRowOf (s : ConvShape) (outRow kernRow : Nat) : Int :=
  (outRow : Int) - topPad s + kernRow

/-- `in_col = out_col - left_pad + kern_col`. -/
def inputColOf (s : ConvShape) (outCol kernCol : Nat) : Int :=
  (outCol : Int) - leftPad s + kernCol

/-- `in_padding_row = in_row < 0 || in_row > valid_row_end`. -/
def isPaddingRow (s : ConvShape) (r : Int) : Bool :=
  decide (r < 0) || decide (r > (s.aRows : Int) - 1)

/-- `in_padding_col = in_col < 0 || in_col > valid_col_end`. -/
def isPaddingCol (s : ConvShape) (c : Int) : Bool :=
  decide (c < 0) || decide (c > (s.aCols : Int) - 1)

/-- The activation value loaded into `act_reg`: zero when the position is in
the padding region, the parent tensor value otherwise. -/
def paddedActivation (s : ConvShape) (act : Nat → Nat → Nat → Int) (r c : Int) (ch : Nat) : Int :=
  if isPaddingRow s r || isPaddingCol s c then 0 else act r.toNat c.toNat ch

/-- One output point of the same-padding convolution for one output feature
map: reduce kernel x activation over kernel rows, kernel cols and input
channels. -/
def convPoint (s : ConvShape) (act : Nat → Nat → Nat → Int) (w : Nat → Nat → Nat → Int)
    (outRow outCol : Nat) : Int :=
  ∑ kr ∈ Finset.range s.kRows, ∑ kc ∈ Finset.range s.kCols, ∑ ch ∈ Finset.range s.kHeight,
    w kr kc ch * paddedActivation s act (inputRowOf s outRow kr) (inputColOf s outCol kc) ch

/-! ### SMV backend globals

Embedded from `src/nnet_lib/src/core/backend.h` (`SmvBackend::initGlobals`,
`SmvBackend::SpadSize`).  `malloc_aligned(n)` is modelled by recording the
allocated byte count. -/

/-- The SMV global state set up by `initGlobals`: the reported scratchpad size
and the allocated byte count of each scratchpad. -/
structure SmvGlobals where
  kSpadSize : Nat
  spad0Bytes : Nat
  spad1Bytes : Nat
  spad2Bytes : Nat

/-- `SmvBackend::initGlobals`: `kSpadSize = 32 * 1024` (in terms of float16
data); each scratchpad is allocated with `kSpadSize * 2` bytes because
float32 data is stored in place of the modelled float16 data. -/
def smvInitGlobals : SmvGlobals :=
  let k := 32 * 1024
  { kSpadSize := k, spad0Bytes := k * 2, spad1Bytes := k * 2, spad2Bytes := k * 2 }

/-- `SmvBackend::SpadSize() { return smv::kSpadSize; }`. -/
def smvSpadSize (g : SmvGlobals) : Nat := g.kSpadSize

/-! ### Arithmetic helper lemmas -/

lemma roundUp_mono {x y : Nat} (a : Nat) (h : x ≤ y) : roundUp x a ≤ roundUp y a := by
  unfold roundUp
  split
  · exact h
  · exact Nat.mul_le_mul_right _ (Nat.div_le_div_right (by omega))

lemma le_ceilDiv_mul {d t : Nat} (ht : 0 < t) : d ≤ ceilDiv d t * t := by
  unfold ceilDiv
  rcases Nat.eq_zero_or_pos d with hd | hd
  · simp [hd]
  · have h1 : d + t - 1 = (d - 1) + t := by omega
    rw [h1, Nat.add_div_right _ ht, Nat.add_mul, Nat.one_mul]
    have h2 : t * ((d - 1) / t) + (d - 1) % t = d - 1 := Nat.div_add_mod _ _
    have h3 : (d - 1) % t < t := Nat.mod_lt _ ht
    have h4 : (d - 1) / t * t = t * ((d - 1) / t) := Nat.mul_comm _ _
    omega

lemma div_lt_ceilDiv {x d t : Nat} (ht : 0 < t) (hx : x < d) : x / t < ceilDiv d t := by
  by_contra h
  push_neg at h
  have h1 : d ≤ ceilDiv d t * t := le_ceilDiv_mul ht
  have h2 : ceilDiv d t * t ≤ x / t * t := Nat.mul_le_mul_right _ h
  have h3 : x / t * t ≤ x := Nat.div_mul_le_self _ _
  omega

lemma div_pin {k t x : Nat} (h1 : k * t ≤ x) (h2 : x < k * t + t) : x / t = k :=
  Nat.div_eq_of_lt_le h1 (by rw [Nat.add_mul, Nat.one_mul]; exact h2)

lemma lt_div_mul_add {x t : Nat} (ht : 0 < t) : x < x / t * t + t := by
  have h := Nat.div_add_mod x t
  have h2 : x % t < t := Nat.mod_lt _ ht
  have h3 : x / t * t = t * (x / t) := Nat.mul_comm _ _
  omega

/-! ### Storage monotonicity -/

lemma leDims_length : ∀ {l1 l2 : List Nat}, leDims l1 l2 = true → l1.length = l2.length := by
  intro l1
  induction l1 with
  | nil => intro l2 h; cases l2 with
    | nil => rfl
    | cons b bs => simp [leDims] at h
  | cons a as ih =>
    intro l2 h
    cases l2 with
    | nil => simp [leDims] at h
    | cons b bs =>
      simp only [leDims, Bool.and_eq_true, decide_eq_true_eq] at h
      simp [ih h.2]

lemma padLast_le (a : Nat) : ∀ (l1 l2 : List Nat), leDims l1 l2 = true →
    leDims (padLast a l1) (padLast a l2) = true := by
  intro l1
  induction l1 with
  | nil =>
    intro l2 h
    cases l2 with
    | nil => simp [padLast, leDims]
    | cons b bs => simp [leDims] at h
  | cons d ds ih =>
    intro l2 h
    cases l2 with
    | nil => simp [leDims] at h
    | cons e es =>
      simp only [leDims, Bool.and_eq_true, decide_eq_true_eq] at h
      cases ds with
      | nil =>
        have hlen := leDims_length h.2
        cases es with
        | nil => simp [padLast, leDims, roundUp_mono a h.1]
        | cons e2 es2 => simp at hlen
      | cons d2 ds2 =>
        have hlen := leDims_length h.2
        cases es with
        | nil => simp at hlen
        | cons e2 es2 =>
          simp only [padLast]
          simp only [leDims, Bool.and_eq_true, decide_eq_true_eq]
          exact ⟨h.1, ih _ h.2⟩

lemma foldrProd_le : ∀ {l1 l2 : List Nat}, leDims l1 l2 = true →
    l1.foldr (· * ·) 1 ≤ l2.foldr (· * ·) 1 := by
  intro l1
  induction l1 with
  | nil =>
    intro l2 h
    cases l2 with
    | nil => simp
    | cons b bs => simp [leDims] at h
  | cons a as ih =>
    intro l2 h
    cases l2 with
    | nil => simp [leDims] at h
    | cons b bs =>
      simp only [leDims, Bool.and_eq_true, decide_eq_true_eq] at h
      simpa using Nat.mul_le_mul h.1 (ih h.2)

lemma storageBytes_le {l1 l2 : List Nat} (a esz : Nat) (h : leDims l1 l2 = true) :
    storageBytes l1 a esz ≤ storageBytes l2 a esz :=
  Nat.mul_le_mul_right _ (foldrProd_le (padLast_le a _ _ h))

/-! ### Strategy selector lemmas -/

lemma strategyTileDims_ge_min : ∀ (mask : List Bool) (dims minShape : List Nat),
    mask.length = dims.length → leDims minShape dims = true →
    leDims minShape (strategyTileDims mask dims minShape) = true := by
  intro mask
  induction mask with
  | nil =>
    intro dims minShape hlen hle
    cases dims with
    | nil =>
      cases minShape with
      | nil => simp [strategyTileDims, zip3With, leDims]
      | cons mn mns => simp [leDims] at hle
    | cons d ds => simp at hlen
  | cons b bs ih =>
    intro dims minShape hlen hle
    cases dims with
    | nil => simp at hlen
    | cons d ds =>
      cases minShape with
      | nil => simp [leDims] at hle
      | cons mn mns =>
        simp only [leDims, Bool.and_eq_true, decide_eq_true_eq] at hle
        simp only [strategyTileDims, zip3With, leDims, Bool.and_eq_true, decide_eq_true_eq]
        refine ⟨?_, ?_⟩
        · cases b <;> simp [hle.1]
        · have := ih ds mns (by simpa using hlen) hle.2
          simpa [strategyTileDims] using this

lemma findBestTilingDims_iff : ∀ (order : List (List Bool)) (dims minShape : List Nat)
    (cap a esz : Nat) (m : List Bool),
    findBestTilingDims order dims minShape cap a esz = some m ↔
      ∃ pre post, order = pre ++ m :: post ∧
        fitsStrategy m dims minShape cap a esz = true ∧
        ∀ mk ∈ pre, fitsStrategy mk dims minShape cap a esz = false := by
  intro order
  induction order with
  | nil =>
    intro dims minShape cap a esz m
    constructor
    · intro h; simp [findBestTilingDims] at h
    · rintro ⟨pre, post, habs, -, -⟩
      exact absurd habs (by simp)
  | cons m0 rest ih =>
    intro dims minShape cap a esz m
    constructor
    · intro h
      simp only [findBestTilingDims] at h
      split at h
      next hf =>
        cases h
        exact ⟨[], rest, rfl, hf, by simp⟩
      next hf =>
        obtain ⟨pre, post, heq, hfit, hall⟩ := (ih dims minShape cap a esz m).mp h
        refine ⟨m0 :: pre, post, by rw [heq]; rfl, hfit, ?_⟩
        intro mk hmk
        rcases List.mem_cons.mp hmk with h' | h'
        · subst h'; exact eq_false_of_ne_true hf
        · exact hall mk h'
    · rintro ⟨pre, post, heq, hfit, hall⟩
      cases pre with
      | nil =>
        simp only [List.nil_append, List.cons.injEq] at heq
        obtain ⟨h1, h2⟩ := heq
        subst h1
        simp [findBestTilingDims, hfit]
      | cons p ps =>
        simp only [List.cons_append, List.cons.injEq] at heq
        obtain ⟨h1, h2⟩ := heq
        have hp : fitsStrategy m0 dims minShape cap a esz = false := by
          rw [h1]; exact hall p (by simp)
        simp only [findBestTilingDims, hp]
        simp only [Bool.false_eq_true, if_false]
        exact (ih dims minShape cap a esz m).mpr
          ⟨ps, post, h2, hfit, fun mk hmk => hall mk (by simp [hmk])⟩

lemma fitsStrategy_false_of_small (mask : List Bool) (dims minShape : List Nat)
    (cap a esz : Nat) (hlen : mask.length = dims.length)
    (hmin : leDims minShape dims = true)
    (hcap : cap < storageBytes minShape a esz) :
    fitsStrategy mask dims minShape cap a esz = false := by
  have h1 := strategyTileDims_ge_min mask dims minShape hlen hmin
  have h2 := storageBytes_le a esz h1
  simp only [fitsStrategy, decide_eq_false_iff_not]
  omega

lemma findBestTilingDims_none_of_small : ∀ (order : List (List Bool)) (dims minShape : List Nat)
    (cap a esz : Nat), (∀ mk ∈ order, mk.length = dims.length) →
    leDims minShape dims = true → cap < storageBytes minShape a esz →
    findBestTilingDims order dims minShape cap a esz = none := by
  intro order
  induction order with
  | nil => intro dims minShape cap a esz _ _ _; rfl
  | cons m0 rest ih =>
    intro dims minShape cap a esz hlen hmin hcap
    have hf := fitsStrategy_false_of_small m0 dims minShape cap a esz
      (hlen m0 (by simp)) hmin hcap
    simp only [findBestTilingDims, hf]
    simp only [Bool.false_eq_true, if_false]
    exact ih dims minShape cap a esz (fun mk hmk => hlen mk (by simp [hmk])) hmin hcap

/-! ### Tile generator lemmas: coverage and clipping -/

lemma divTileIndex_forall₂ : ∀ (dims tdims c : List Nat),
    tdims.length = dims.length → (∀ t ∈ tdims, 0 < t) → validCoordB dims c = true →
    List.Forall₂ (· ∈ ·) (divTileIndex c tdims)
      (List.zipWith (fun d t => List.range (ceilDiv d t)) dims tdims) := by
  intro dims
  induction dims with
  | nil =>
    intro tdims c hlen hpos hv
    cases tdims with
    | nil =>
      cases c with
      | nil => simp [divTileIndex]
      | cons x xs => simp [validCoordB] at hv
    | cons t ts => simp at hlen
  | cons d ds ih =>
    intro tdims c hlen hpos hv
    cases tdims with
    | nil => simp at hlen
    | cons t ts =>
      cases c with
      | nil => simp [validCoordB] at hv
      | cons x xs =>
        simp only [validCoordB, Bool.and_eq_true, decide_eq_true_eq] at hv
        simp only [divTileIndex, List.zipWith_cons_cons]
        refine List.Forall₂.cons ?_ ?_
        · simpa [List.mem_range] using div_lt_ceilDiv (hpos t (by simp)) hv.1
        · exact ih ts xs (by simpa using hlen) (fun u hu => hpos u (by simp [hu])) hv.2

lemma divTileIndex_mem (dims tdims c : List Nat)
    (hlen : tdims.length = dims.length) (hpos : ∀ t ∈ tdims, 0 < t)
    (hv : validCoordB dims c = true) :
    divTileIndex c tdims ∈ genTileIndices dims tdims :=
  List.mem_sections.mpr (divTileIndex_forall₂ dims tdims c hlen hpos hv)

lemma divTileIndex_contains : ∀ (dims tdims c : List Nat),
    tdims.length = dims.length → (∀ t ∈ tdims, 0 < t) → validCoordB dims c = true →
    tileContainsB tdims dims (divTileIndex c tdims) c = true := by
  intro dims
  induction dims with
  | nil =>
    intro tdims c hlen hpos hv
    cases tdims with
    | nil =>
      cases c with
      | nil => rfl
      | cons x xs => simp [validCoordB] at hv
    | cons t ts => simp at hlen
  | cons d ds ih =>
    intro tdims c hlen hpos hv
    cases tdims with
    | nil => simp at hlen
    | cons t ts =>
      cases c with
      | nil => simp [validCoordB] at hv
      | cons x xs =>
        simp only [validCoordB, Bool.and_eq_true, decide_eq_true_eq] at hv
        have ht : 0 < t := hpos t (by simp)
        have h1 : x / t * t ≤ x := Nat.div_mul_le_self _ _
        have h2 : x < x / t * t + t := lt_div_mul_add ht
        simp only [divTileIndex, List.zipWith_cons_cons, tileContainsB, Bool.and_eq_true,
          decide_eq_true_eq]
        refine ⟨⟨h1, ?_⟩, ?_⟩
        · have hxd : x < d := hv.1
          omega
        · simpa [divTileIndex] using
            ih ts xs (by simpa using hlen) (fun u hu => hpos u (by simp [hu])) hv.2

lemma contains_eq_divTileIndex : ∀ (dims tdims ks c : List Nat),
    (∀ t ∈ tdims, 0 < t) →
    tileContainsB tdims dims ks c = true → ks = divTileIndex c tdims := by
  intro dims
  induction dims with
  | nil =>
    intro tdims ks c hpos h
    cases tdims with
    | nil =>
      cases ks with
      | nil =>
        cases c with
        | nil => rfl
        | cons x xs => simp [tileContainsB] at h
      | cons k kss => simp [tileContainsB] at h
    | cons t ts => simp [tileContainsB] at h
  | cons d ds ih =>
    intro tdims ks c hpos h
    cases tdims with
    | nil => simp [tileContainsB] at h
    | cons t ts =>
      cases ks with
      | nil => simp [tileContainsB] at h
      | cons k kss =>
        cases c with
        | nil => simp [tileContainsB] at h
        | cons x xs =>
          simp only [tileContainsB, Bool.and_eq_true, decide_eq_true_eq] at h
          obtain ⟨⟨hh1, hh2⟩, hrest⟩ := h
          have hk : k = x / t := by
            have hmin : min t (d - k * t) ≤ t := Nat.min_le_left _ _
            have hlt : x < k * t + t := by omega
            exact (div_pin hh1 hlt).symm
          simp only [divTileIndex, List.zipWith_cons_cons]
          rw [hk]
          exact congrArg _ (ih ts kss xs (fun u hu => hpos u (by simp [hu])) hrest)

lemma strided_cover (d T s x : Nat) (hs : 0 < s) (hsT : s ≤ T) (hx : x < d) :
    ∃ off ∈ stridedTileOffsets d s, off ≤ x ∧ x < off + T := by
  refine ⟨x / s * s, ?_, Nat.div_mul_le_self _ _, ?_⟩
  · simp only [stridedTileOffsets, List.mem_map, List.mem_range]
    exact ⟨x / s, div_lt_ceilDiv hs hx, rfl⟩
  · have := lt_div_mul_add (x := x) hs
    omega

lemma tileSizes_le : ∀ (ks tdims dims : List Nat),
    ks.length = tdims.length → tdims.length = dims.length →
    leDims (tileSizes ks tdims dims) tdims = true := by
  intro ks
  induction ks with
  | nil =>
    intro tdims dims h1 h2
    cases tdims with
    | nil => simp [tileSizes, zip3With, leDims]
    | cons t ts => simp at h1
  | cons k kss ih =>
    intro tdims dims h1 h2
    cases tdims with
    | nil => simp at h1
    | cons t ts =>
      cases dims with
      | nil => simp at h2
      | cons d ds =>
        simp only [tileSizes, zip3With, leDims, Bool.and_eq_true, decide_eq_true_eq]
        refine ⟨Nat.min_le_left _ _, ?_⟩
        simpa [tileSizes] using ih ts ds (by simpa using h1) (by simpa using h2)

lemma mem_genTileIndices_length {dims tdims ks : List Nat}
    (h : ks ∈ genTileIndices dims tdims) : ks.length = min dims.length tdims.length := by
  have h2 := List.mem_sections_length h
  simpa using h2

/-! ### Tile-shape search lemmas -/

lemma domNat_trans {tx px ty py tz pz : Nat}
    (h1 : tx ≤ ty) (h2 : tx = ty → px ≤ py) (h3 : ty ≤ tz) (h4 : ty = tz → py ≤ pz) :
    tx ≤ tz ∧ (tx = tz → px ≤ pz) := by
  refine ⟨le_trans h1 h3, fun he => ?_⟩
  have e1 : tx = ty := le_antisymm h1 (he ▸ h3)
  have e2 : ty = tz := by omega
  exact le_trans (h2 e1) (h4 e2)

lemma betterConfig_dom (a esz : Nat) (acc d acc' : TilingConfig)
    (hacc' : acc' = if betterConfig a esz acc d then d else acc) :
    (configTotal a esz acc ≤ configTotal a esz acc' ∧
      (configTotal a esz acc = configTotal a esz acc' →
        configPrimary a esz acc ≤ configPrimary a esz acc')) ∧
    (configTotal a esz d ≤ configTotal a esz acc' ∧
      (configTotal a esz d = configTotal a esz acc' →
        configPrimary a esz d ≤ configPrimary a esz acc')) := by
  by_cases hb : betterConfig a esz acc d = true
  · rw [hacc', if_pos hb]
    simp only [betterConfig, Bool.or_eq_true, Bool.and_eq_true, decide_eq_true_eq] at hb
    refine ⟨⟨?_, ?_⟩, le_refl _, fun _ => le_refl _⟩ <;> omega
  · rw [hacc', if_neg hb]
    simp only [betterConfig, Bool.or_eq_true, Bool.and_eq_true, decide_eq_true_eq] at hb
    push_neg at hb
    refine ⟨⟨le_refl _, fun _ => le_refl _⟩, ?_, ?_⟩ <;> omega

lemma foldl_best_spec (a esz : Nat) : ∀ (l : List TilingConfig) (acc : TilingConfig),
    (l.foldl (fun best d => if betterConfig a esz best d then d else best) acc) ∈ acc :: l ∧
    ∀ c ∈ acc :: l,
      configTotal a esz c ≤
        configTotal a esz (l.foldl (fun best d => if betterConfig a esz best d then d else best) acc) ∧
      (configTotal a esz c =
          configTotal a esz (l.foldl (fun best d => if betterConfig a esz best d then d else best) acc) →
        configPrimary a esz c ≤
          configPrimary a esz (l.foldl (fun best d => if betterConfig a esz best d then d else best) acc)) := by
  intro l
  induction l with
  | nil =>
    intro acc
    refine ⟨by simp, ?_⟩
    intro c hc
    have : c = acc := by simpa using hc
    subst this
    exact ⟨le_refl _, fun _ => le_refl _⟩
  | cons d ds ih =>
    intro acc
    simp only [List.foldl_cons]
    obtain ⟨ihmem, ihdom⟩ := ih (if betterConfig a esz acc d then d else acc)
    obtain ⟨hdomacc, hdomd⟩ := betterConfig_dom a esz acc d _ rfl
    have hdomacc' := ihdom _ (List.mem_cons_self _ _)
    constructor
    · rcases List.mem_cons.mp ihmem with h | h
      · rw [h]
        by_cases hb : betterConfig a esz acc d = true
        · simp [hb]
        · simp [hb]
      · simp [h]
    · intro c hc
      rcases List.mem_cons.mp hc with h | h
      · subst h
        exact domNat_trans hdomacc.1 hdomacc.2 hdomacc'.1 hdomacc'.2
      · rcases List.mem_cons.mp h with h' | h'
        · subst h'
          exact domNat_trans hdomd.1 hdomd.2 hdomacc'.1 hdomacc'.2
        · exact ihdom c (List.mem_cons_of_mem _ h')

lemma findBestTileShape_spec (a esz : Nat) (l : List TilingConfig) (best : TilingConfig)
    (h : findBestTileShape a esz l = some best) :
    best ∈ l ∧ ∀ c ∈ l, configTotal a esz c ≤ configTotal a esz best ∧
      (configTotal a esz c = configTotal a esz best →
        configPrimary a esz c ≤ configPrimary a esz best) := by
  cases l with
  | nil => simp [findBestTileShape] at h
  | cons c0 rest =>
    simp only [findBestTileShape, Option.some.injEq] at h
    subst h
    exact foldl_best_spec a esz rest c0

lemma findBestTileShape_isSome (a esz : Nat) (l : List TilingConfig) (hne : l ≠ []) :
    ∃ b, findBestTileShape a esz l = some b := by
  cases l with
  | nil => exact absurd rfl hne
  | cons c0 rest => exact ⟨_, rfl⟩

lemma setWeightDims_length (n : Nat) (s wS : List Nat) :
    (setWeightDims n s wS).length = wS.length := by
  unfold setWeightDims
  split
  · simp
  · rfl

lemma mem_enumWeight_facts {s wS : List Nat} {kPE maxTile a esz : Nat} {c : TilingConfig}
    (h : c ∈ enumWeightConfigsDimN s wS kPE maxTile a esz) :
    c.inputs = s ∧ (∃ n, c.weights = setWeightDims n s wS) ∧
      storageBytes c.weights a esz ≤ maxTile := by
  have hpred := List.mem_takeWhile_imp h
  have hmem := List.Sublist.mem h (List.takeWhile_sublist _)
  simp only [List.mem_map] at hmem
  obtain ⟨n, -, hn⟩ := hmem
  subst hn
  simp only [decide_eq_true_eq] at hpred
  exact ⟨rfl, ⟨n, rfl⟩, hpred⟩

lemma mem_enumInput_facts {inS : List Nat} {maxTile a esz : Nat} {s : List Nat}
    (h : s ∈ enumInputConfigsDimN inS maxTile a esz) :
    storageBytes s a esz ≤ maxTile ∧ ∃ i, s = (i + 1) :: inS.tail := by
  rw [enumInputConfigsDimN, List.mem_filter] at h
  obtain ⟨hmem, hpred⟩ := h
  simp only [List.mem_map, List.mem_range] at hmem
  obtain ⟨i, -, hi⟩ := hmem
  simp only [decide_eq_true_eq] at hpred
  exact ⟨hpred, ⟨i, hi.symm⟩⟩

lemma mem_computeBasic_facts {inS wS : List Nat} {kPE maxTile a esz : Nat} {c : TilingConfig}
    (h : c ∈ computeBasicTileShapesDimN inS wS kPE maxTile a esz) :
    storageBytes c.inputs a esz ≤ maxTile ∧ storageBytes c.weights a esz ≤ maxTile ∧
      (∃ i, c.inputs = (i + 1) :: inS.tail) ∧ ∃ n, c.weights = setWeightDims n c.inputs wS := by
  rw [computeBasicTileShapesDimN, List.mem_flatMap] at h
  obtain ⟨s, hs, hc⟩ := h
  obtain ⟨hsize, i, hi⟩ := mem_enumInput_facts hs
  obtain ⟨hin, ⟨n, hw⟩, hwsize⟩ := mem_enumWeight_facts hc
  subst hin
  exact ⟨hsize, hwsize, ⟨i, hi⟩, ⟨n, hw⟩⟩

lemma mem_takeWhile_mono {α : Type} {p q : α → Bool}
    (hpq : ∀ y, p y = true → q y = true) :
    ∀ {l : List α} {x : α}, x ∈ l.takeWhile p → x ∈ l.takeWhile q := by
  intro l
  induction l with
  | nil => intro x h; simp [List.takeWhile] at h
  | cons b bs ih =>
    intro x h
    by_cases hpb : p b = true
    · rw [List.takeWhile_cons_of_pos hpb] at h
      rw [List.takeWhile_cons_of_pos (hpq b hpb)]
      rcases List.mem_cons.mp h with h' | h'
      · simp [h']
      · exact List.mem_cons_of_mem _ (ih h')
    · rw [List.takeWhile_cons_of_neg hpb] at h
      simp at h

lemma mem_computeBasic_mono {inS wS : List Nat} {kPE cap cap' a esz : Nat} {c : TilingConfig}
    (hcc : cap ≤ cap') (h : c ∈ computeBasicTileShapesDimN inS wS kPE cap a esz) :
    c ∈ computeBasicTileShapesDimN inS wS kPE cap' a esz := by
  rw [computeBasicTileShapesDimN, List.mem_flatMap] at h ⊢
  obtain ⟨s, hs, hc⟩ := h
  refine ⟨s, ?_, ?_⟩
  · rw [enumInputConfigsDimN, List.mem_filter] at hs ⊢
    refine ⟨hs.1, ?_⟩
    have h2 := hs.2
    simp only [decide_eq_true_eq] at h2 ⊢
    omega
  · rw [enumWeightConfigsDimN] at hc ⊢
    refine mem_takeWhile_mono (fun y hy => ?_) hc
    simp only [decide_eq_true_eq] at hy ⊢
    omega

/-! ### Per-batch tiling and merge lemmas -/

lemma mem_generatePerBatch {α : Type} {t : Tensor2 α} {T : Nat} {copyData : Bool} {z : α}
    {tl : Tile2 α} (h : tl ∈ generateTiledTensorPerBatchNC t T copyData z) :
    ∃ b k, b < t.batches ∧ k < ceilDiv t.channels T ∧
      tl = Tile2.mk b (k * T) 1 (min T (t.channels - k * T))
        (fun i j => if copyData then t.data (b + i) (k * T + j) else z) := by
  rw [generateTiledTensorPerBatchNC, List.mem_flatMap] at h
  obtain ⟨b, hb, h2⟩ := h
  simp only [List.mem_range] at hb
  simp only [List.mem_map, List.mem_range] at h2
  obtain ⟨k, hk, he⟩ := h2
  exact ⟨b, k, hb, hk, he.symm⟩

lemma generatePerBatch_length {α : Type} (t : Tensor2 α) (T : Nat) (copyData : Bool) (z : α) :
    (generateTiledTensorPerBatchNC t T copyData z).length
      = t.batches * ceilDiv t.channels T := by
  unfold generateTiledTensorPerBatchNC
  rw [List.length_flatMap]
  have h1 : List.map
      (List.length ∘ fun b => (List.range (ceilDiv t.channels T)).map fun k =>
        Tile2.mk b (k * T) 1 (min T (t.channels - k * T))
          (fun i j => if copyData then t.data (b + i) (k * T + j) else z))
      (List.range t.batches)
      = List.replicate t.batches (ceilDiv t.channels T) := by
    have h2 := List.map_const' (List.range t.batches) (ceilDiv t.channels T)
    rw [List.length_range] at h2
    rw [Function.comp_def]
    simp only [List.length_map, List.length_range] at h2 ⊢
    exact h2
  rw [h1, List.sum_replicate, smul_eq_mul]

lemma generate_tile_mem {α : Type} (t : Tensor2 α) (T : Nat) (copyData : Bool) (z : α)
    {n c : Nat} (hn : n < t.batches) (hc : c < t.channels) (hT : 0 < T) :
    Tile2.mk n (c / T * T) 1 (min T (t.channels - c / T * T))
        (fun i j => if copyData then t.data (n + i) (c / T * T + j) else z)
      ∈ generateTiledTensorPerBatchNC t T copyData z := by
  rw [generateTiledTensorPerBatchNC, List.mem_flatMap]
  refine ⟨n, by simp [hn], ?_⟩
  simp only [List.mem_map, List.mem_range]
  exact ⟨c / T, div_lt_ceilDiv hT hc, rfl⟩

lemma flatten_generate {α : Type} (t : Tensor2 α) (T : Nat) (z : α) (hT : 0 < T)
    {n c : Nat} (hn : n < t.batches) (hc : c < t.channels) :
    flattenTiledTensor (generateTiledTensorPerBatchNC t T true z) z n c = t.data n c := by
  unfold flattenTiledTensor
  cases hfind : (generateTiledTensorPerBatchNC t T true z).find? (fun tl => tileHolds tl n c) with
  | none =>
    exfalso
    rw [List.find?_eq_none] at hfind
    refine hfind _ (generate_tile_mem t T true z hn hc hT) ?_
    simp only [tileHolds, Bool.and_eq_true, decide_eq_true_eq]
    have h1 : c / T * T ≤ c := Nat.div_mul_le_self _ _
    have h2 : c < c / T * T + T := lt_div_mul_add hT
    exact ⟨⟨⟨le_refl n, by omega⟩, h1⟩, by omega⟩
  | some tl =>
    have hp := List.find?_some hfind
    have hm := List.mem_of_find?_eq_some hfind
    obtain ⟨b, k, hb, hk, he⟩ := mem_generatePerBatch hm
    subst he
    simp only [tileHolds, Bool.and_eq_true, decide_eq_true_eq] at hp
    obtain ⟨⟨⟨hp1, hp2⟩, hp3⟩, hp4⟩ := hp
    have hbn : b = n := by omega
    show (if true = true then t.data (b + (n - b)) (k * T + (c - k * T)) else z) = t.data n c
    rw [if_pos rfl]
    have e1 : b + (n - b) = n := by omega
    have e2 : k * T + (c - k * T) = c := by omega
    rw [e1, e2]

lemma zipWith_map_map {β γ δ : Type} (k : γ → γ → δ) (g h : β → γ) (l : List β) :
    List.zipWith k (l.map g) (l.map h) = l.map (fun x => k (g x) (h x)) := by
  induction l with
  | nil => rfl
  | cons a as ih => simp [ih]

lemma zipWith_flatMap_flatMap {β γ δ : Type} (k : γ → γ → δ) (g h : β → List γ) (l : List β)
    (hlen : ∀ x ∈ l, (g x).length = (h x).length) :
    List.zipWith k (l.flatMap g) (l.flatMap h)
      = l.flatMap (fun x => List.zipWith k (g x) (h x)) := by
  induction l with
  | nil => rfl
  | cons a as ih =>
    simp only [List.flatMap_cons]
    rw [List.zipWith_append _ _ _ _ _ (hlen a (by simp))]
    rw [ih (fun x hx => hlen x (by simp [hx]))]

lemma tiledEltwise_generate {α : Type} (op : α → α → α) (t1 t2 : Tensor2 α) (T : Nat) (z : α)
    (hb : t2.batches = t1.batches) (hc : t2.channels = t1.channels) :
    tiledEltwise op (generateTiledTensorPerBatchNC t1 T true z)
        (generateTiledTensorPerBatchNC t2 T true z)
      = generateTiledTensorPerBatchNC
          (Tensor2.mk t1.batches t1.channels (fun n c => op (t1.data n c) (t2.data n c)))
          T true z := by
  unfold tiledEltwise generateTiledTensorPerBatchNC
  simp only [hb, hc]
  rw [zipWith_flatMap_flatMap]
  · congr 1
    funext b
    rw [zipWith_map_map]
    rfl
  · intro x hx
    simp

/-! ### Convolution kernel lemmas -/

lemma paddedActivation_zero (s : ConvShape) (act : Nat → Nat → Nat → Int) (r c : Int) (ch : Nat)
    (h : (isPaddingRow s r || isPaddingCol s c) = true) :
    paddedActivation s act r c ch = 0 := by
  unfold paddedActivation
  rw [if_pos h]

lemma paddedActivation_congr (s : ConvShape) (act act' : Nat → Nat → Nat → Int)
    (hagree : ∀ r c ch, r < s.aRows → c < s.aCols → act r c ch = act' r c ch)
    (r c : Int) (ch : Nat) :
    paddedActivation s act r c ch = paddedActivation s act' r c ch := by
  unfold paddedActivation
  split
  · rfl
  next h =>
    simp only [isPaddingRow, isPaddingCol, Bool.or_eq_true, decide_eq_true_eq] at h
    push_neg at h
    obtain ⟨⟨hr0, hr1⟩, hc0, hc1⟩ := h
    exact hagree _ _ _ (by omega) (by omega)

lemma convPoint_congr (s : ConvShape) (act act' w : Nat → Nat → Nat → Int)
    (hagree : ∀ r c ch, r < s.aRows → c < s.aCols → act r c ch = act' r c ch)
    (outRow outCol : Nat) :
    convPoint s act w outRow outCol = convPoint s act' w outRow outCol := by
  unfold convPoint
  refine Finset.sum_congr rfl fun kr _ => Finset.sum_congr rfl fun kc _ =>
    Finset.sum_congr rfl fun ch _ => ?_
  rw [paddedActivation_congr s act act' hagree]

/-! ### Claim theorems -/

/-- C1: for every tile produced by tile generation under a tiling configuration
chosen by the tile-shape search, the tile's storage size in bytes is at most the
capacity budget: every enumerated configuration's per-tensor tile shapes already
fit the scratchpad, and boundary tiles are clipped, hence no larger. -/
theorem chosenConfig_tiles_fit_capacity (inS wS : List Nat) (kPE cap a esz : Nat)
    (best : TilingConfig)
    (h : findBestTileShape a esz (computeBasicTileShapesDimN inS wS kPE cap a esz) = some best)
    (hinS : inS ≠ []) :
    (∀ ks ∈ genTileIndices inS best.inputs,
      storageBytes (tileSizes ks best.inputs inS) a esz ≤ cap) ∧
    (∀ ks ∈ genTileIndices wS best.weights,
      storageBytes (tileSizes ks best.weights wS) a esz ≤ cap) := by
  obtain ⟨hmem, -⟩ := findBestTileShape_spec a esz _ best h
  obtain ⟨hin, hw, ⟨i, hiTy⟩, ⟨n, hnW⟩⟩ := mem_computeBasic_facts hmem
  have hlenIn : best.inputs.length = inS.length := by
    rw [hiTy]
    cases inS with
    | nil => exact absurd rfl hinS
    | cons d ds => simp
  have hlenW : best.weights.length = wS.length := by
    rw [hnW]
    exact setWeightDims_length n best.inputs wS
  constructor
  · intro ks hks
    have hklen := mem_genTileIndices_length hks
    have h1 : ks.length = best.inputs.length := by omega
    exact le_trans (storageBytes_le a esz (tileSizes_le ks best.inputs inS h1 hlenIn)) hin
  · intro ks hks
    have hklen := mem_genTileIndices_length hks
    have h1 : ks.length = best.weights.length := by omega
    exact le_trans (storageBytes_le a esz (tileSizes_le ks best.weights wS h1 hlenW)) hw

theorem chosenConfig_tiles_fit_capacity_witness :
    storageBytes (tileSizes [0, 0, 0, 0] [1, 1, 1, 2] [1, 1, 1, 2]) 0 1 ≤ 100 :=
  (chosenConfig_tiles_fit_capacity [1, 1, 1, 2] [2, 1, 1, 2] 1 100 0 1
      (TilingConfig.mk [1, 1, 1, 2] [2, 1, 1, 2]) (by decide) (by decide)).1
    [0, 0, 0, 0] (by decide)

/-- C2: the union of the generated tiles covers the parent tensor's coordinate
space: with the non-overlapping generator every valid coordinate lies in exactly
one generated tile, and with the overlapping/strided variant every coordinate of
a dimension is covered by at least one tile offset (tiles of extent `T` placed
at stride `s ≤ T`). -/
theorem tiling_coverage (dims tdims : List Nat)
    (hlen : tdims.length = dims.length) (hpos : ∀ t ∈ tdims, 0 < t) :
    (∀ c, validCoordB dims c = true →
      ∃! ks, ks ∈ genTileIndices dims tdims ∧ tileContainsB tdims dims ks c = true) ∧
    (∀ d T s x, 0 < s → s ≤ T → x < d →
      ∃ off ∈ stridedTileOffsets d s, off ≤ x ∧ x < off + T) := by
  constructor
  · intro c hv
    refine ⟨divTileIndex c tdims,
      ⟨divTileIndex_mem dims tdims c hlen hpos hv,
        divTileIndex_contains dims tdims c hlen hpos hv⟩, ?_⟩
    rintro ks ⟨-, hcon⟩
    exact contains_eq_divTileIndex dims tdims ks c hpos hcon
  · intro d T s x hs hsT hx
    exact strided_cover d T s x hs hsT hx

theorem tiling_coverage_witness :
    (∃! ks, ks ∈ genTileIndices [2, 3] [1, 2] ∧
      tileContainsB [1, 2] [2, 3] ks [1, 2] = true) ∧
    ∃ off ∈ stridedTileOffsets 5 2, off ≤ 4 ∧ 4 < off + 3 :=
  ⟨(tiling_coverage [2, 3] [1, 2] (by decide) (by decide)).1 [1, 2] (by decide),
    (tiling_coverage [2, 3] [1, 2] (by decide) (by decide)).2 5 3 2 4 (by decide) (by decide)
      (by decide)⟩

/-- C3: generating tiles with `copyData = true` and flattening the resulting
tiled tensor back without modifying any tile reproduces the original tensor's
data exactly at every coordinate. -/
theorem tiled_roundTrip {α : Type} (t : Tensor2 α) (T : Nat) (z : α) (hT : 0 < T)
    (n c : Nat) (hn : n < t.batches) (hc : c < t.channels) :
    flattenTiledTensor (generateTiledTensorPerBatchNC t T true z) z n c = t.data n c :=
  flatten_generate t T z hT hn hc

theorem tiled_roundTrip_witness :
    flattenTiledTensor
        (generateTiledTensorPerBatchNC (Tensor2.mk 2 3 (fun n c => (10 * n + c : Int))) 2 true 0)
        0 1 2 = 12 :=
  tiled_roundTrip (Tensor2.mk 2 3 (fun n c => (10 * n + c : Int))) 2 0 (by decide) 1 2
    (by decide) (by decide)

/-- C4: the strategy selector walks the preference order (starting at no
tiling) and returns exactly the first strategy whose candidate tile — the
partitioned dimensions reduced to their floor values, the unpartitioned
dimensions kept at full extent, hence at least the minimum shape — fits within
the capacity budget. -/
theorem findBestTilingDims_first_fit (order : List (List Bool)) (dims minShape : List Nat)
    (cap a esz : Nat) (m : List Bool)
    (hlen : ∀ mask ∈ order, mask.length = dims.length)
    (hmin : leDims minShape dims = true) :
    (findBestTilingDims order dims minShape cap a esz = some m ↔
      ∃ pre post, order = pre ++ m :: post ∧
        fitsStrategy m dims minShape cap a esz = true ∧
        ∀ mask ∈ pre, fitsStrategy mask dims minShape cap a esz = false) ∧
    (findBestTilingDims order dims minShape cap a esz = some m →
      leDims minShape (strategyTileDims m dims minShape) = true) := by
  refine ⟨findBestTilingDims_iff order dims minShape cap a esz m, fun h => ?_⟩
  obtain ⟨pre, post, heq, -, -⟩ := (findBestTilingDims_iff order dims minShape cap a esz m).mp h
  have hm : m ∈ order := by
    rw [heq]
    exact List.mem_append_right _ (List.mem_cons_self _ _)
  exact strategyTileDims_ge_min m dims minShape (hlen m hm) hmin

theorem findBestTilingDims_first_fit_witness :
    findBestTilingDims [[false, false], [true, false]] [4, 2] [1, 2] 4 0 1
        = some [true, false] ∧
    leDims [1, 2] (strategyTileDims [true, false] [4, 2] [1, 2]) = true := by
  obtain ⟨hiff, hresp⟩ :=
    findBestTilingDims_first_fit [[false, false], [true, false]] [4, 2] [1, 2] 4 0 1
      [true, false] (by decide) (by decide)
  have hfind := hiff.mpr ⟨[[false, false]], [], rfl, by decide, by decide⟩
  exact ⟨hfind, hresp hfind⟩

/-- C5: if the capacity budget is smaller than the storage size of the minimum
tile shape itself, the strategy search reports the infeasible-configuration
error before any tile is generated — the pipeline fails with no partial state
and zero tiles produced. -/
theorem infeasible_zero_tiles (order : List (List Bool)) (dims minShape : List Nat)
    (cap a esz : Nat)
    (hlen : ∀ mask ∈ order, mask.length = dims.length)
    (hmin : leDims minShape dims = true)
    (hcap : cap < storageBytes minShape a esz) :
    tileTensor order dims minShape cap a esz = none := by
  unfold tileTensor
  rw [findBestTilingDims_none_of_small order dims minShape cap a esz hlen hmin hcap]

theorem infeasible_zero_tiles_witness :
    tileTensor [[true, true]] [4, 2] [2, 1] 1 0 1 = none :=
  infeasible_zero_tiles [[true, true]] [4, 2] [2, 1] 1 0 1 (by decide) (by decide) (by decide)

/-- C6: the tile-shape search picks, among the enumerated configurations —
all of which respect the capacity budget per scratchpad, over-capacity
candidates having been excluded during enumeration rather than treated as
errors — the configuration with maximum total capacity utilization, ties
broken in favor of the configuration whose primary (input) tile is largest. -/
theorem findBestTileShape_optimal (inS wS : List Nat) (kPE maxTile a esz : Nat)
    (best : TilingConfig)
    (h : findBestTileShape a esz (computeBasicTileShapesDimN inS wS kPE maxTile a esz)
        = some best) :
    best ∈ computeBasicTileShapesDimN inS wS kPE maxTile a esz ∧
    storageBytes best.inputs a esz ≤ maxTile ∧
    storageBytes best.weights a esz ≤ maxTile ∧
    (∀ c ∈ computeBasicTileShapesDimN inS wS kPE maxTile a esz,
      storageBytes c.inputs a esz ≤ maxTile ∧ storageBytes c.weights a esz ≤ maxTile) ∧
    (∀ c ∈ computeBasicTileShapesDimN inS wS kPE maxTile a esz,
      configTotal a esz c ≤ configTotal a esz best ∧
      (configTotal a esz c = configTotal a esz best →
        configPrimary a esz c ≤ configPrimary a esz best)) := by
  obtain ⟨hmem, hdom⟩ := findBestTileShape_spec a esz _ best h
  obtain ⟨h1, h2, -, -⟩ := mem_computeBasic_facts hmem
  refine ⟨hmem, h1, h2, fun c hc => ?_, hdom⟩
  obtain ⟨g1, g2, -, -⟩ := mem_computeBasic_facts hc
  exact ⟨g1, g2⟩

theorem findBestTileShape_optimal_witness :
    configTotal 0 1 (TilingConfig.mk [1, 1, 1, 2] [1, 1, 1, 2])
      ≤ configTotal 0 1 (TilingConfig.mk [1, 1, 1, 2] [2, 1, 1, 2]) :=
  ((findBestTileShape_optimal [1, 1, 1, 2] [2, 1, 1, 2] 1 100 0 1
        (TilingConfig.mk [1, 1, 1, 2] [2, 1, 1, 2]) (by decide)).2.2.2.2
    (TilingConfig.mk [1, 1, 1, 2] [1, 1, 1, 2]) (by decide)).1

/-- C7 counterexample: tiling the [8, 4096] float32 tensor against the
32768-byte budget with the per-batch generator and minimum batch tile 1 yields
8 tiles, not 4: a per-batch generator emits one single-row tile group per batch
row, and 4 tiles of shape [1, 4096] could not cover 8 rows. -/
theorem scenario_tile_count_not_four :
    (generateTiledTensorPerBatchNC (Tensor2.mk 8 4096 (fun _ _ => (0 : Int)))
        (min (32768 / 4) (8 * 4096)) true 0).length = 8 ∧
    (generateTiledTensorPerBatchNC (Tensor2.mk 8 4096 (fun _ _ => (0 : Int)))
        (min (32768 / 4) (8 * 4096)) true 0).length ≠ 4 := by
  have hT : min (32768 / 4) (8 * 4096) = 8192 := by norm_num
  have hlen : (generateTiledTensorPerBatchNC (Tensor2.mk 8 4096 (fun _ _ => (0 : Int)))
      (min (32768 / 4) (8 * 4096)) true 0).length = 8 := by
    rw [generatePerBatch_length, hT]
    show 8 * ceilDiv 4096 8192 = 8
    norm_num [ceilDiv]
  exact ⟨hlen, by omega⟩

/-- C7 (amended): tiling a rank-2 float32 tensor of shape [8, 4096] against a
32768-byte budget with the per-batch DimN tiling and minimum batch tile of 1
produces exactly 8 tiles of shape [1, 4096] (one per batch row), each of
storage 16384 ≤ 32768 bytes; merging the tiles reproduces the original 8x4096
array, and an elementwise add computed independently per tile equals the
untiled elementwise result exactly at every coordinate. -/
theorem scenario_eltwise_tiling (f g : Nat → Nat → Int) :
    (generateTiledTensorPerBatchNC (Tensor2.mk 8 4096 f)
        (min (32768 / 4) (8 * 4096)) true 0).length = 8 ∧
    (∀ tl ∈ generateTiledTensorPerBatchNC (Tensor2.mk 8 4096 f)
        (min (32768 / 4) (8 * 4096)) true 0,
      tl.sizeN = 1 ∧ tl.sizeC = 4096 ∧ storageBytes [tl.sizeN, tl.sizeC] 0 4 ≤ 32768) ∧
    (∀ n c, n < 8 → c < 4096 →
      flattenTiledTensor
          (generateTiledTensorPerBatchNC (Tensor2.mk 8 4096 f)
            (min (32768 / 4) (8 * 4096)) true 0) 0 n c
        = f n c) ∧
    (∀ n c, n < 8 → c < 4096 →
      flattenTiledTensor
          (tiledEltwise (· + ·)
            (generateTiledTensorPerBatchNC (Tensor2.mk 8 4096 f)
              (min (32768 / 4) (8 * 4096)) true 0)
            (generateTiledTensorPerBatchNC (Tensor2.mk 8 4096 g)
              (min (32768 / 4) (8 * 4096)) true 0)) 0 n c
        = f n c + g n c) := by
  have hT : min (32768 / 4) (8 * 4096) = 8192 := by norm_num
  have hpos : 0 < min (32768 / 4) (8 * 4096) := by rw [hT]; norm_num
  refine ⟨?_, ?_, ?_, ?_⟩
  · rw [generatePerBatch_length, hT]
    show 8 * ceilDiv 4096 8192 = 8
    norm_num [ceilDiv]
  · intro tl htl
    obtain ⟨b, k, hb, hk, he⟩ := mem_generatePerBatch htl
    have hceil : ceilDiv (Tensor2.mk 8 4096 f).channels (min (32768 / 4) (8 * 4096)) = 1 := by
      rw [hT]
      show ceilDiv 4096 8192 = 1
      norm_num [ceilDiv]
    rw [hceil] at hk
    have hk0 : k = 0 := by omega
    subst hk0
    subst he
    refine ⟨rfl, ?_, ?_⟩
    · rw [hT]
      show min 8192 (4096 - 0 * 8192) = 4096
      norm_num
    · rw [hT]
      show storageBytes [1, min 8192 (4096 - 0 * 8192)] 0 4 ≤ 32768
      norm_num [storageBytes, storageElems, padLast, roundUp]
  · intro n c hn hc
    exact flatten_generate (Tensor2.mk 8 4096 f) _ 0 hpos hn hc
  · intro n c hn hc
    rw [tiledEltwise_generate (· + ·) (Tensor2.mk 8 4096 f) (Tensor2.mk 8 4096 g) _ 0 rfl rfl]
    exact flatten_generate _ _ 0 hpos hn hc

theorem scenario_eltwise_tiling_witness :
    flattenTiledTensor
        (tiledEltwise (· + ·)
          (generateTiledTensorPerBatchNC (Tensor2.mk 8 4096 (fun _ _ => (1 : Int)))
            (min (32768 / 4) (8 * 4096)) true 0)
          (generateTiledTensorPerBatchNC (Tensor2.mk 8 4096 (fun _ _ => (2 : Int)))
            (min (32768 / 4) (8 * 4096)) true 0)) 0 0 0 = 3 :=
  (scenario_eltwise_tiling (fun _ _ => 1) (fun _ _ => 2)).2.2.2 0 0 (by decide) (by decide)

/-- C8: in the SMV same-padding convolution kernel, input positions outside the
parent tensor's valid bounds contribute zero values — the activation loaded in
the padding region is zero, and the convolution output never depends on parent
data outside the valid bounds — with per-side padding amounts given by the
floor/ceil parity split of the kernel extent (`left_pad = k / 2`,
`right_pad = (k - 1) - k / 2`, and likewise for top/bottom). -/
theorem conv_same_padding_zero_fill (s : ConvShape) (k : Nat)
    (hrows : s.kRows = k) (hcols : s.kCols = k) (hk : 0 < k)
    (act act' w : Nat → Nat → Nat → Int)
    (hagree : ∀ r c ch, r < s.aRows → c < s.aCols → act r c ch = act' r c ch) :
    (∀ r c ch, (isPaddingRow s r || isPaddingCol s c) = true →
      paddedActivation s act r c ch = 0) ∧
    (∀ outRow outCol, convPoint s act w outRow outCol = convPoint s act' w outRow outCol) ∧
    leftPad s = k / 2 ∧ leftPad s + rightPad s = k - 1 ∧
    topPad s = k / 2 ∧ topPad s + bottomPad s = k - 1 := by
  refine ⟨fun r c ch h => paddedActivation_zero s act r c ch h,
    fun outRow outCol => convPoint_congr s act act' w hagree outRow outCol, ?_, ?_, ?_, ?_⟩
  · simp only [leftPad, hrows]
  · simp only [leftPad, rightPad, topPad, bottomPad, hrows, hcols]
    omega
  · simp only [topPad, hcols]
  · simp only [leftPad, rightPad, topPad, bottomPad, hrows, hcols]
    omega

theorem conv_same_padding_zero_fill_witness :
    paddedActivation (ConvShape.mk 2 2 3 3 1) (fun r c _ => (r : Int) + c) (-1) 0 0 = 0 ∧
    (convPoint (ConvShape.mk 2 2 3 3 1) (fun r c _ => (r : Int) + c) (fun _ _ _ => 1) 0 0 =
      convPoint (ConvShape.mk 2 2 3 3 1)
        (fun r c _ => if r < 2 ∧ c < 2 then (r : Int) + c else 99) (fun _ _ _ => 1) 0 0) ∧
    leftPad (ConvShape.mk 2 2 3 3 1) = 1 := by
  obtain ⟨h1, h2, h3, -, -, -⟩ :=
    conv_same_padding_zero_fill (ConvShape.mk 2 2 3 3 1) 3 rfl rfl (by decide)
      (fun r c _ => (r : Int) + c)
      (fun r c _ => if r < 2 ∧ c < 2 then (r : Int) + c else 99)
      (fun _ _ _ => 1)
      (fun r c ch hr hc => by simp [hr, hc])
  exact ⟨h1 (-1) 0 0 (by decide), h2 0 0, h3⟩

/-- C9: with tensor shapes and minimum-tile constraints fixed, the total
utilized capacity of the configuration chosen by the tile-shape search is
monotonically non-decreasing in the capacity budget. -/
theorem utilization_monotone (inS wS : List Nat) (kPE cap cap' a esz : Nat)
    (hcc : cap ≤ cap') (c : TilingConfig)
    (h : findBestTileShape a esz (computeBasicTileShapesDimN inS wS kPE cap a esz) = some c) :
    ∃ c', findBestTileShape a esz (computeBasicTileShapesDimN inS wS kPE cap' a esz) = some c' ∧
      configTotal a esz c ≤ configTotal a esz c' := by
  obtain ⟨hmem, -⟩ := findBestTileShape_spec a esz _ c h
  have hmem' := mem_computeBasic_mono hcc hmem
  have hne : computeBasicTileShapesDimN inS wS kPE cap' a esz ≠ [] := by
    intro habs
    rw [habs] at hmem'
    simp at hmem'
  obtain ⟨c', hc'⟩ := findBestTileShape_isSome a esz _ hne
  obtain ⟨-, hdom⟩ := findBestTileShape_spec a esz _ c' hc'
  exact ⟨c', hc', (hdom c hmem').1⟩

theorem utilization_monotone_witness :
    ∃ c', findBestTileShape 0 1 (computeBasicTileShapesDimN [1, 1, 1, 2] [2, 1, 1, 2] 1 100 0 1)
        = some c' ∧
      configTotal 0 1 (TilingConfig.mk [1, 1, 1, 2] [1, 1, 1, 2]) ≤ configTotal 0 1 c' :=
  utilization_monotone [1, 1, 1, 2] [2, 1, 1, 2] 1 2 100 0 1 (by decide)
    (TilingConfig.mk [1, 1, 1, 2] [1, 1, 1, 2]) (by decide)

/-- C10: for the SMV backend, `SpadSize()` reports 32768 bytes (`kSpadSize`,
counted in float16 terms) while `initGlobals` allocates each of the three
scratchpads with twice that many bytes, so the capacity visible to the tiling
search is half the allocated buffer size. -/
theorem spadSize_half_allocated :
    smvSpadSize smvInitGlobals = 32768 ∧
    smvInitGlobals.spad0Bytes = 2 * 32768 ∧
    smvInitGlobals.spad1Bytes = 2 * 32768 ∧
    smvInitGlobals.spad2Bytes = 2 * 32768 ∧
    2 * smvSpadSize smvInitGlobals = smvInitGlobals.spad0Bytes ∧
    2 * smvSpadSize smvInitGlobals = smvInitGlobals.spad1Bytes ∧
    2 * smvSpadSize smvInitGlobals = smvInitGlobals.spad2Bytes := by
  decide

end Smaug
